import Mathlib

/-!
Shallow embedding of parts of the `git-branchless` sources:
the undo engine (`src/commands/undo.rs`), the smartlog root comparator
(`src/commands/smartlog.rs`), and the hook-file sentinel updater
(`src/commands/init.rs`), together with proofs about their behaviour.

The canonical undo variant embedded here is the one from
`src/commands/undo.rs` (the immutable-cursor variant carrying
`event_tx_id` fields), per the design notes of the specification.
-/

/-- Event timestamps are `f64` seconds since the UNIX epoch in the source.
No embedded operation computes with them (they are only copied and
compared for equality), so they are modelled as exact rationals. -/
abbrev Timestamp := Rat

/-- Transaction ids are integers assigned by the event store. -/
abbrev EventTransactionId := Int

/-- The event model, taken from the exhaustive pattern matches in
`src/commands/undo.rs` (`inverse_event`, `undo_events`): every variant
carries `timestamp` and `event_tx_id`, plus its own payload. OIDs and ref
names are strings. -/
inductive Event where
  | CommitEvent (timestamp : Timestamp) (event_tx_id : EventTransactionId)
      (commit_oid : String)
  | HideEvent (timestamp : Timestamp) (event_tx_id : EventTransactionId)
      (commit_oid : String)
  | UnhideEvent (timestamp : Timestamp) (event_tx_id : EventTransactionId)
      (commit_oid : String)
  | RewriteEvent (timestamp : Timestamp) (event_tx_id : EventTransactionId)
      (old_commit_oid new_commit_oid : String)
  | RefUpdateEvent (timestamp : Timestamp) (event_tx_id : EventTransactionId)
      (ref_name : String) (old_ref new_ref : Option String)
      (message : Option String)
  deriving DecidableEq, Repr

/-- The `timestamp` field common to all event variants. -/
def eventTimestamp : Event → Timestamp
  | .CommitEvent timestamp _ _ => timestamp
  | .HideEvent timestamp _ _ => timestamp
  | .UnhideEvent timestamp _ _ => timestamp
  | .RewriteEvent timestamp _ _ _ => timestamp
  | .RefUpdateEvent timestamp _ _ _ _ _ => timestamp

/-- The `event_tx_id` field common to all event variants. -/
def eventTxId : Event → EventTransactionId
  | .CommitEvent _ event_tx_id _ => event_tx_id
  | .HideEvent _ event_tx_id _ => event_tx_id
  | .UnhideEvent _ event_tx_id _ => event_tx_id
  | .RewriteEvent _ event_tx_id _ _ => event_tx_id
  | .RefUpdateEvent _ event_tx_id _ _ _ _ => event_tx_id

/-- Replace the `timestamp` and `event_tx_id` fields of an event, leaving
every other field unchanged.  Used to state equality of events "in every
field except `timestamp` and `event_tx_id`". -/
def setMeta (e : Event) (t : Timestamp) (tx : EventTransactionId) : Event :=
  match e with
  | .CommitEvent _ _ commit_oid => .CommitEvent t tx commit_oid
  | .HideEvent _ _ commit_oid => .HideEvent t tx commit_oid
  | .UnhideEvent _ _ commit_oid => .UnhideEvent t tx commit_oid
  | .RewriteEvent _ _ old_commit_oid new_commit_oid =>
      .RewriteEvent t tx old_commit_oid new_commit_oid
  | .RefUpdateEvent _ _ ref_name old_ref new_ref message =>
      .RefUpdateEvent t tx ref_name old_ref new_ref message

/-- Embedding of `inverse_event` from `src/commands/undo.rs`.  The Rust
function computes the new timestamp from `now : SystemTime` (which can
only fail before the epoch); the embedding receives the computed
timestamp directly. -/
def inverse_event (event : Event) (now : Timestamp)
    (event_tx_id : EventTransactionId) : Event :=
  match event with
  | .CommitEvent _ _ commit_oid => .HideEvent now event_tx_id commit_oid
  | .UnhideEvent _ _ commit_oid => .HideEvent now event_tx_id commit_oid
  | .HideEvent _ _ commit_oid => .UnhideEvent now event_tx_id commit_oid
  | .RewriteEvent _ _ old_commit_oid new_commit_oid =>
      .RewriteEvent now event_tx_id new_commit_oid old_commit_oid
  | .RefUpdateEvent _ _ ref_name old_ref new_ref _ =>
      .RefUpdateEvent now event_tx_id ref_name new_ref old_ref none

/-- The guard `Event::RefUpdateEvent { ref ref_name, .. } if ref_name ==
"HEAD"` used by `optimize_inverse_events` and by the sort key in
`undo_events`. -/
def isHeadRefUpdate : Event → Bool
  | .RefUpdateEvent _ _ ref_name _ _ _ => ref_name == "HEAD"
  | _ => false

/-- The loop body of `optimize_inverse_events`: iterate (the already
reversed) events, keep the first `HEAD` ref update seen, drop the rest,
keep everything else.  The boolean is `seen_checkout`. -/
def optimizeGo : List Event → Bool → List Event
  | [], _ => []
  | e :: rest, seen_checkout =>
    if isHeadRefUpdate e then
      if seen_checkout then optimizeGo rest seen_checkout
      else e :: optimizeGo rest true
    else e :: optimizeGo rest seen_checkout

/-- Embedding of `optimize_inverse_events` from `src/commands/undo.rs`:
iterate the input in reverse with `seen_checkout := false`, then reverse
the kept events back. -/
def optimize_inverse_events (events : List Event) : List Event :=
  (optimizeGo events.reverse false).reverse

/-- The sort key used by `undo_events` to move checkout operations first:
`0` for a `HEAD` ref update, `1` otherwise. -/
def undoSortKey (event : Event) : Nat :=
  if isHeadRefUpdate event then 0 else 1

/-- Stable insertion step for `sortByHeadFirst`: insert `e` before the
first element whose key is not smaller. -/
def insertByKey (e : Event) : List Event → List Event
  | [] => [e]
  | x :: xs =>
    if undoSortKey e ≤ undoSortKey x then e :: x :: xs
    else x :: insertByKey e xs

/-- Embedding of `inverse_events.sort_by_key(...)` from `undo_events`.
Rust's `sort_by_key` is a stable sort; a stable sort is a deterministic
function of the input, embedded here as a stable insertion sort on the
two-valued key `undoSortKey`. -/
def sortByHeadFirst : List Event → List Event
  | [] => []
  | e :: rest => insertByKey e (sortByHeadFirst rest)

/-- The filter applied by `undo_events` before inversion: drop events of
shape `RefUpdateEvent { ref_name: "HEAD", old_ref: None, .. }`. -/
def isCreateHeadEvent : Event → Bool
  | .RefUpdateEvent _ _ ref_name none _ _ => ref_name == "HEAD"
  | _ => false

/-- A ref update that targets `HEAD` and deletes it (`new_ref = none`):
the shape an inverted create-`HEAD` event would have. -/
def isDeleteHeadEvent : Event → Bool
  | .RefUpdateEvent _ _ ref_name _ none _ => ref_name == "HEAD"
  | _ => false

/-- The inverse-event computation of `undo_events`: take the event suffix
since the cursor, iterate it reversed, drop create-`HEAD` events, invert
each event, then optimize. -/
def computeInverseEvents (suffix : List Event) (now : Timestamp)
    (tx : EventTransactionId) : List Event :=
  optimize_inverse_events
    ((suffix.reverse.filter (fun event => !isCreateHeadEvent event)).map
      (fun event => inverse_event event now tx))

/-- The full inverse-event list that `undo_events` describes, confirms
and applies: the optimized inverse events, stably sorted so that `HEAD`
ref updates come first. -/
def undoInverseEvents (suffix : List Event) (now : Timestamp)
    (tx : EventTransactionId) : List Event :=
  sortByHeadFirst (computeInverseEvents suffix now tx)

/-- A repository-mutating action issued by the application loop of
`undo_events`. -/
inductive RepoAction where
  | checkoutDetach (target : String)
  | deleteRef (ref_name : String)
  | updateRef (ref_name : String) (target : String)
  | addEvents (events : List Event)
  deriving DecidableEq, Repr

/-- One iteration of the application loop of `undo_events`, with the same
match-arm order as the source: a `HEAD` ref update with a new value runs
`git checkout --detach`; a no-op ref update does nothing; a deletion
deletes the reference; any other ref update creates or updates it; the
remaining event kinds are appended to the event log. -/
def applyInverseEvent (event : Event) : List RepoAction :=
  match event with
  | .RefUpdateEvent _ _ ref_name _ (some new_ref) _ =>
    if ref_name = "HEAD" then [.checkoutDetach new_ref]
    else [.updateRef ref_name new_ref]
  | .RefUpdateEvent _ _ _ none none _ => []
  | .RefUpdateEvent _ _ ref_name (some _) none _ => [.deleteRef ref_name]
  | e => [.addEvents [e]]

/-- The actions of the whole application loop, in list order. -/
def applyInverseEvents : List Event → List RepoAction
  | [] => []
  | e :: rest => applyInverseEvent e ++ applyInverseEvents rest

/-- Embedding of Rust's `str::trim`: drop whitespace characters from both
ends of the string. -/
def rust_trim (s : String) : String :=
  String.mk (((s.data.dropWhile Char.isWhitespace).reverse.dropWhile
    Char.isWhitespace).reverse)

/-- The confirmation check of `undo_events`: read one line (`none` models
a read error), trim it, and accept exactly `y` or `Y`. -/
def parseConfirmed (userInput : Option String) : Bool :=
  match userInput with
  | some line => rust_trim line == "y" || rust_trim line == "Y"
  | none => false

/-- Modelled from the spec: the `Pluralize` formatting helper
(`core/formatting`, absent from `src/`) renders `"N inverse event"` or
`"N inverse events"`. -/
def pluralize (amount : Int) (singular plural : String) : String :=
  if amount = 1 then toString amount ++ " " ++ singular
  else toString amount ++ " " ++ plural

/-- Result of `undo_events`: its exit code, the lines written to the
output, and the repository actions performed. -/
structure UndoResult where
  exitCode : Int
  output : List String
  actions : List RepoAction
  deriving DecidableEq, Repr

/-- Embedding of `undo_events` from `src/commands/undo.rs`.  The
`describe` parameter stands for `describe_events_numbered`, which renders
events against the live repository; `suffix` is the result of
`get_events_since_cursor`; `userInput` is the line read from the input
(`none` models a read error). -/
def undo_events (describe : List Event → List String) (suffix : List Event)
    (userInput : Option String) (now : Timestamp)
    (tx : EventTransactionId) : UndoResult :=
  let inverse_events := undoInverseEvents suffix now tx
  if inverse_events.isEmpty then
    { exitCode := 0
      output := ["No undo actions to apply, exiting."]
      actions := [] }
  else
    let header := "Will apply these actions:" ::
      (describe inverse_events ++ ["Confirm? [yN] "])
    if parseConfirmed userInput then
      { exitCode := 0
        output := header ++
          ["Applied " ++
            pluralize inverse_events.length "inverse event" "inverse events"
            ++ "."]
        actions := applyInverseEvents inverse_events }
    else
      { exitCode := 1
        output := header ++ ["Aborted."]
        actions := [] }

lemma optimizeGo_true (l : List Event) :
    optimizeGo l true = l.filter (fun e => !isHeadRefUpdate e) := by
  induction l with
  | nil => rfl
  | cons e rest ih =>
    by_cases he : isHeadRefUpdate e <;>
      simp [optimizeGo, he, List.filter_cons, ih]

lemma optimizeGo_of_no_head (l : List Event) (b : Bool)
    (h : ∀ e ∈ l, isHeadRefUpdate e = false) : optimizeGo l b = l := by
  induction l with
  | nil => rfl
  | cons e rest ih =>
    have he := h e (List.mem_cons_self e rest)
    simp [optimizeGo, he, ih fun x hx => h x (List.mem_cons_of_mem e hx)]

lemma optimizeGo_append_no_head (A B : List Event) (b : Bool)
    (h : ∀ e ∈ A, isHeadRefUpdate e = false) :
    optimizeGo (A ++ B) b = A ++ optimizeGo B b := by
  induction A with
  | nil => rfl
  | cons e rest ih =>
    have he := h e (List.mem_cons_self e rest)
    simp [optimizeGo, he, ih fun x hx => h x (List.mem_cons_of_mem e hx)]

lemma optimize_of_no_head (S : List Event)
    (h : ∀ e ∈ S, isHeadRefUpdate e = false) :
    optimize_inverse_events S = S := by
  unfold optimize_inverse_events
  rw [optimizeGo_of_no_head S.reverse false
    (fun e he => h e (List.mem_reverse.mp he)), List.reverse_reverse]

lemma optimize_eq_of_last_head (C : List Event) (h : Event) (D : List Event)
    (hh : isHeadRefUpdate h = true)
    (hD : ∀ e ∈ D, isHeadRefUpdate e = false) :
    optimize_inverse_events (C ++ h :: D) =
      C.filter (fun e => !isHeadRefUpdate e) ++ h :: D := by
  unfold optimize_inverse_events
  have hrev : (C ++ h :: D).reverse = D.reverse ++ (h :: C.reverse) := by
    simp
  rw [hrev, optimizeGo_append_no_head D.reverse (h :: C.reverse) false
    (fun e he => hD e (List.mem_reverse.mp he))]
  have hstep : optimizeGo (h :: C.reverse) false =
      h :: optimizeGo C.reverse true := by
    simp [optimizeGo, hh]
  rw [hstep, optimizeGo_true]
  simp [List.filter_reverse]

lemma optimizeGo_filter_not_head (l : List Event) (b : Bool) :
    (optimizeGo l b).filter (fun e => !isHeadRefUpdate e) =
      l.filter (fun e => !isHeadRefUpdate e) := by
  induction l generalizing b with
  | nil => rfl
  | cons e rest ih =>
    by_cases he : isHeadRefUpdate e <;> cases b <;>
      simp [optimizeGo, he, List.filter_cons, ih]

lemma optimize_filter_not_head (S : List Event) :
    (optimize_inverse_events S).filter (fun e => !isHeadRefUpdate e) =
      S.filter (fun e => !isHeadRefUpdate e) := by
  unfold optimize_inverse_events
  rw [List.filter_reverse, optimizeGo_filter_not_head,
    List.filter_reverse, List.reverse_reverse]

lemma optimizeGo_filter_head_true (l : List Event) :
    (optimizeGo l true).filter isHeadRefUpdate = [] := by
  rw [optimizeGo_true]
  refine List.filter_eq_nil_iff.mpr ?_
  intro a ha
  have := (List.mem_filter.mp ha).2
  simp at this
  simp [this]

lemma optimizeGo_filter_head_false (l : List Event) :
    (optimizeGo l false).filter isHeadRefUpdate =
      (l.filter isHeadRefUpdate).take 1 := by
  induction l with
  | nil => rfl
  | cons e rest ih =>
    by_cases he : isHeadRefUpdate e <;>
      simp [optimizeGo, he, List.filter_cons, ih, optimizeGo_filter_head_true]

lemma option_toList_reverse {α : Type} (o : Option α) :
    o.toList.reverse = o.toList := by
  cases o <;> rfl

lemma take_one_eq_head_toList {α : Type} (l : List α) :
    l.take 1 = l.head?.toList := by
  cases l <;> rfl

lemma optimize_filter_head (S : List Event) :
    (optimize_inverse_events S).filter isHeadRefUpdate =
      (S.filter isHeadRefUpdate).getLast?.toList := by
  unfold optimize_inverse_events
  rw [List.filter_reverse, optimizeGo_filter_head_false,
    List.filter_reverse, take_one_eq_head_toList, List.head?_reverse,
    option_toList_reverse]

lemma exists_first_head (l : List Event)
    (h : ∃ e ∈ l, isHeadRefUpdate e = true) :
    ∃ P x Q, l = P ++ x :: Q ∧ isHeadRefUpdate x = true ∧
      ∀ e ∈ P, isHeadRefUpdate e = false := by
  induction l with
  | nil => simp at h
  | cons a rest ih =>
    by_cases ha : isHeadRefUpdate a
    · exact ⟨[], a, rest, rfl, ha, by simp⟩
    · have h' : ∃ e ∈ rest, isHeadRefUpdate e = true := by
        obtain ⟨e, he, hee⟩ := h
        rcases List.mem_cons.mp he with rfl | hmem
        · exact absurd hee ha
        · exact ⟨e, hmem, hee⟩
      obtain ⟨P, x, Q, hl, hx, hP⟩ := ih h'
      refine ⟨a :: P, x, Q, by rw [hl]; rfl, hx, ?_⟩
      intro e he
      rcases List.mem_cons.mp he with rfl | hmem
      · exact Bool.eq_false_iff.mpr ha
      · exact hP e hmem

lemma exists_last_head (S : List Event)
    (h : ∃ e ∈ S, isHeadRefUpdate e = true) :
    ∃ C x D, S = C ++ x :: D ∧ isHeadRefUpdate x = true ∧
      ∀ e ∈ D, isHeadRefUpdate e = false := by
  have h' : ∃ e ∈ S.reverse, isHeadRefUpdate e = true := by
    obtain ⟨e, he, hee⟩ := h
    exact ⟨e, List.mem_reverse.mpr he, hee⟩
  obtain ⟨P, x, Q, hl, hx, hP⟩ := exists_first_head S.reverse h'
  refine ⟨Q.reverse, x, P.reverse, ?_, hx, ?_⟩
  · have := congrArg List.reverse hl
    simpa using this
  · intro e he
    exact hP e (List.mem_reverse.mp he)

lemma optimize_idem (S : List Event) :
    optimize_inverse_events (optimize_inverse_events S) =
      optimize_inverse_events S := by
  by_cases h : ∃ e ∈ S, isHeadRefUpdate e = true
  · obtain ⟨C, x, D, rfl, hx, hD⟩ := exists_last_head S h
    rw [optimize_eq_of_last_head C x D hx hD,
      optimize_eq_of_last_head (C.filter (fun e => !isHeadRefUpdate e)) x D
        hx hD]
    congr 1
    refine List.filter_eq_self.mpr ?_
    intro a ha
    exact (List.mem_filter.mp ha).2
  · have h' : ∀ e ∈ S, isHeadRefUpdate e = false := by
      intro e he
      cases hb : isHeadRefUpdate e
      · rfl
      · exact absurd ⟨e, he, hb⟩ h
    rw [optimize_of_no_head S h', optimize_of_no_head S h']

/-- C1: `inverse_event` maps `Commit(oid)` and `Unhide(oid)` to
`Hide(oid)`, `Hide(oid)` to `Unhide(oid)`, `Rewrite(a, b)` to
`Rewrite(b, a)`, and `RefUpdate(name, old, new, msg)` to
`RefUpdate(name, new, old, None)`; the result carries `timestamp = now`
and `event_tx_id = new_tx_id`, and the ref-update message is dropped. -/
theorem C1_inverse_event_shape (e : Event) (now : Timestamp)
    (tx : EventTransactionId) :
    inverse_event e now tx =
      (match e with
        | .CommitEvent _ _ oid => .HideEvent now tx oid
        | .UnhideEvent _ _ oid => .HideEvent now tx oid
        | .HideEvent _ _ oid => .UnhideEvent now tx oid
        | .RewriteEvent _ _ a b => .RewriteEvent now tx b a
        | .RefUpdateEvent _ _ n o v _ => .RefUpdateEvent now tx n v o none)
    ∧ eventTimestamp (inverse_event e now tx) = now
    ∧ eventTxId (inverse_event e now tx) = tx := by
  refine ⟨?_, ?_, ?_⟩ <;> cases e <;> rfl

/-- C2 counterexample: applying `inverse_event` twice to a commit event
does not return an event equal to the original in every field except
`timestamp` and `event_tx_id`: `Commit(oid)` comes back as
`Unhide(oid)`, a different variant (even after restoring the original
`timestamp` and `event_tx_id`). -/
theorem C2_counterexample :
    setMeta (inverse_event (inverse_event (Event.CommitEvent 0 1 "a") 2 3)
        4 5) 0 1
      ≠ Event.CommitEvent 0 1 "a" := by
  decide

/-- C2 (amended): applying `inverse_event` twice yields the original
event with `timestamp` and `event_tx_id` replaced by the outer call's
arguments, except that a `Commit(oid)` comes back as `Unhide(oid)` and a
ref update's `message` field is set to `None`; every other field is
preserved. -/
theorem C2_double_inverse (e : Event) (t1 t2 : Timestamp)
    (tx1 tx2 : EventTransactionId) :
    inverse_event (inverse_event e t1 tx1) t2 tx2 =
      (match e with
        | .CommitEvent _ _ oid => .UnhideEvent t2 tx2 oid
        | .HideEvent _ _ oid => .HideEvent t2 tx2 oid
        | .UnhideEvent _ _ oid => .UnhideEvent t2 tx2 oid
        | .RewriteEvent _ _ a b => .RewriteEvent t2 tx2 a b
        | .RefUpdateEvent _ _ n o v _ =>
            .RefUpdateEvent t2 tx2 n o v none) := by
  cases e <;> rfl

/-- C3: on an event sequence whose `HEAD` ref updates form a contiguous
block, `optimize_inverse_events` keeps every non-`HEAD` event in its
original relative order and reduces the `HEAD` ref updates to exactly the
last one. -/
theorem C3_optimize_contiguous (A H B : List Event)
    (hA : ∀ e ∈ A, isHeadRefUpdate e = false)
    (hH : ∀ e ∈ H, isHeadRefUpdate e = true)
    (hB : ∀ e ∈ B, isHeadRefUpdate e = false) :
    optimize_inverse_events (A ++ H ++ B) =
      A ++ H.getLast?.toList ++ B := by
  rcases List.eq_nil_or_concat H with rfl | ⟨H', h, rfl⟩
  · simp only [List.append_nil, Option.toList, List.getLast?_nil]
    refine optimize_of_no_head (A ++ ([] ++ B)) ?_
    intro e he
    rcases List.mem_append.mp he with hA' | hB'
    · exact hA e hA'
    · exact hB e (by simpa using hB')
  · simp only [List.concat_eq_append] at hH ⊢
    have hh : isHeadRefUpdate h = true :=
      hH h (by simp)
    have hsplit : A ++ (H' ++ [h]) ++ B = (A ++ H') ++ h :: B := by
      simp
    rw [hsplit, optimize_eq_of_last_head (A ++ H') h B hh hB]
    have hfilter : (A ++ H').filter (fun e => !isHeadRefUpdate e) = A := by
      rw [List.filter_append]
      have h1 : A.filter (fun e => !isHeadRefUpdate e) = A :=
        List.filter_eq_self.mpr fun a ha => by simp [hA a ha]
      have h2 : H'.filter (fun e => !isHeadRefUpdate e) = [] :=
        List.filter_eq_nil_iff.mpr fun a ha => by
          simp [hH a (List.mem_append_left [h] ha)]
      rw [h1, h2, List.append_nil]
    rw [hfilter, List.getLast?_concat]
    simp

/-- C3 witness: a concrete sequence with a contiguous block of two `HEAD`
ref updates collapses to the final `HEAD` update, preserving the
surrounding events. -/
theorem C3_witness :
    optimize_inverse_events
      ([Event.CommitEvent 0 1 "a"] ++
        [Event.RefUpdateEvent 0 1 "HEAD" none (some "x") none,
         Event.RefUpdateEvent 0 1 "HEAD" (some "x") (some "y") none] ++
        [Event.HideEvent 0 1 "b"]) =
    [Event.CommitEvent 0 1 "a"] ++
      [Event.RefUpdateEvent 0 1 "HEAD" none (some "x") none,
       Event.RefUpdateEvent 0 1 "HEAD" (some "x") (some "y")
         none].getLast?.toList ++
      [Event.HideEvent 0 1 "b"] :=
  C3_optimize_contiguous _ _ _ (by decide) (by decide) (by decide)

/-- C10: without any contiguity assumption, `optimize_inverse_events`
preserves the non-`HEAD` events, keeps exactly the last `HEAD` ref update
(if any) at its original relative position, and is idempotent. -/
theorem C10_optimize_general (S C D : List Event) (h : Event) :
    ((optimize_inverse_events S).filter (fun e => !isHeadRefUpdate e) =
        S.filter (fun e => !isHeadRefUpdate e)) ∧
    ((optimize_inverse_events S).filter isHeadRefUpdate =
        (S.filter isHeadRefUpdate).getLast?.toList) ∧
    (optimize_inverse_events (optimize_inverse_events S) =
        optimize_inverse_events S) ∧
    (isHeadRefUpdate h = true → (∀ e ∈ D, isHeadRefUpdate e = false) →
        optimize_inverse_events (C ++ h :: D) =
          C.filter (fun e => !isHeadRefUpdate e) ++ h :: D) :=
  ⟨optimize_filter_not_head S, optimize_filter_head S, optimize_idem S,
    fun hh hD => optimize_eq_of_last_head C h D hh hD⟩

/-- C10 witness: concrete evaluation on a sequence whose `HEAD` updates
are not contiguous. -/
theorem C10_witness :
    ((optimize_inverse_events
        [Event.RefUpdateEvent 0 1 "HEAD" (some "a") (some "b") none,
         Event.CommitEvent 0 1 "c",
         Event.RefUpdateEvent 0 1 "HEAD" (some "b") (some "d") none]).filter
        (fun e => !isHeadRefUpdate e) =
      ([Event.RefUpdateEvent 0 1 "HEAD" (some "a") (some "b") none,
        Event.CommitEvent 0 1 "c",
        Event.RefUpdateEvent 0 1 "HEAD" (some "b") (some "d")
          none].filter (fun e => !isHeadRefUpdate e))) ∧
    ((optimize_inverse_events
        [Event.RefUpdateEvent 0 1 "HEAD" (some "a") (some "b") none,
         Event.CommitEvent 0 1 "c",
         Event.RefUpdateEvent 0 1 "HEAD" (some "b") (some "d") none]).filter
        isHeadRefUpdate =
      ([Event.RefUpdateEvent 0 1 "HEAD" (some "a") (some "b") none,
        Event.CommitEvent 0 1 "c",
        Event.RefUpdateEvent 0 1 "HEAD" (some "b") (some "d")
          none].filter isHeadRefUpdate).getLast?.toList) ∧
    (optimize_inverse_events
        (optimize_inverse_events
          [Event.RefUpdateEvent 0 1 "HEAD" (some "a") (some "b") none,
           Event.CommitEvent 0 1 "c",
           Event.RefUpdateEvent 0 1 "HEAD" (some "b") (some "d") none]) =
      optimize_inverse_events
        [Event.RefUpdateEvent 0 1 "HEAD" (some "a") (some "b") none,
         Event.CommitEvent 0 1 "c",
         Event.RefUpdateEvent 0 1 "HEAD" (some "b") (some "d") none]) ∧
    (optimize_inverse_events
        ([Event.RefUpdateEvent 0 1 "HEAD" (some "a") (some "b") none,
          Event.CommitEvent 0 1 "c"] ++
          Event.RefUpdateEvent 0 1 "HEAD" (some "b") (some "d") none ::
            [Event.HideEvent 0 1 "e"]) =
      [Event.RefUpdateEvent 0 1 "HEAD" (some "a") (some "b") none,
        Event.CommitEvent 0 1 "c"].filter (fun e => !isHeadRefUpdate e) ++
        Event.RefUpdateEvent 0 1 "HEAD" (some "b") (some "d") none ::
          [Event.HideEvent 0 1 "e"]) := by
  have key := C10_optimize_general
    [Event.RefUpdateEvent 0 1 "HEAD" (some "a") (some "b") none,
     Event.CommitEvent 0 1 "c",
     Event.RefUpdateEvent 0 1 "HEAD" (some "b") (some "d") none]
    [Event.RefUpdateEvent 0 1 "HEAD" (some "a") (some "b") none,
     Event.CommitEvent 0 1 "c"]
    [Event.HideEvent 0 1 "e"]
    (Event.RefUpdateEvent 0 1 "HEAD" (some "b") (some "d") none)
  exact ⟨key.1, key.2.1, key.2.2.1, key.2.2.2 (by decide) (by decide)⟩

lemma insertByKey_of_key_zero (e : Event) (l : List Event)
    (he : undoSortKey e = 0) : insertByKey e l = e :: l := by
  cases l with
  | nil => rfl
  | cons x xs => simp [insertByKey, he]

lemma insertByKey_of_key_one (e : Event) (A B : List Event)
    (he : undoSortKey e = 1)
    (hA : ∀ x ∈ A, undoSortKey x = 0)
    (hB : ∀ x ∈ B, undoSortKey x = 1) :
    insertByKey e (A ++ B) = A ++ e :: B := by
  induction A with
  | nil =>
    cases B with
    | nil => rfl
    | cons b bs =>
      have hb := hB b (List.mem_cons_self b bs)
      simp [insertByKey, he, hb]
  | cons a as ih =>
    have ha := hA a (List.mem_cons_self a as)
    have hcond : ¬ undoSortKey e ≤ undoSortKey a := by
      rw [he, ha]
      decide
    simp only [List.cons_append, insertByKey, if_neg hcond, List.append_eq]
    rw [ih fun x hx => hA x (List.mem_cons_of_mem a hx)]

lemma undoSortKey_eq_zero (e : Event) (h : isHeadRefUpdate e = true) :
    undoSortKey e = 0 := by
  simp [undoSortKey, h]

lemma undoSortKey_eq_one (e : Event) (h : isHeadRefUpdate e = false) :
    undoSortKey e = 1 := by
  simp [undoSortKey, h]

lemma sortByHeadFirst_partition (l : List Event) :
    sortByHeadFirst l =
      l.filter isHeadRefUpdate ++ l.filter (fun e => !isHeadRefUpdate e) := by
  induction l with
  | nil => rfl
  | cons e rest ih =>
    by_cases he : isHeadRefUpdate e
    · rw [sortByHeadFirst, ih,
        insertByKey_of_key_zero e _ (undoSortKey_eq_zero e he)]
      simp [List.filter_cons, he]
    · have he' : isHeadRefUpdate e = false := Bool.eq_false_iff.mpr he
      rw [sortByHeadFirst, ih,
        insertByKey_of_key_one e _ _ (undoSortKey_eq_one e he')
          (fun x hx => undoSortKey_eq_zero x (List.mem_filter.mp hx).2)
          (fun x hx => undoSortKey_eq_one x (by
            have := (List.mem_filter.mp hx).2
            simpa using this))]
      simp [List.filter_cons, he']

lemma mem_sortByHeadFirst {e : Event} {l : List Event}
    (h : e ∈ sortByHeadFirst l) : e ∈ l := by
  rw [sortByHeadFirst_partition] at h
  rcases List.mem_append.mp h with h | h <;> exact (List.mem_filter.mp h).1

lemma mem_optimizeGo {e : Event} {l : List Event} {b : Bool}
    (h : e ∈ optimizeGo l b) : e ∈ l := by
  induction l generalizing b with
  | nil => simp [optimizeGo] at h
  | cons x rest ih =>
    by_cases hx : isHeadRefUpdate x
    · cases b
      · simp only [optimizeGo, if_pos hx, if_neg Bool.false_ne_true] at h
        rcases List.mem_cons.mp h with rfl | h'
        · exact List.mem_cons_self _ _
        · exact List.mem_cons_of_mem x (ih h')
      · simp only [optimizeGo, if_pos hx, if_pos rfl] at h
        exact List.mem_cons_of_mem x (ih h)
    · simp only [optimizeGo, if_neg hx] at h
      rcases List.mem_cons.mp h with rfl | h'
      · exact List.mem_cons_self _ _
      · exact List.mem_cons_of_mem x (ih h')

lemma mem_optimize {e : Event} {S : List Event}
    (h : e ∈ optimize_inverse_events S) : e ∈ S := by
  unfold optimize_inverse_events at h
  exact List.mem_reverse.mp (mem_optimizeGo (List.mem_reverse.mp h))

/-- C4: the reordering performed by `undo_events` before application is a
stable partition putting every `HEAD` ref update before every other
event, and the actions of `undo_events` (on a confirming input) are those
of the application loop run over that reordered list, so any `HEAD`
update is processed first. -/
theorem C4_head_updates_first (l suffix : List Event)
    (describe : List Event → List String) (now : Timestamp)
    (tx : EventTransactionId) :
    (sortByHeadFirst l =
      l.filter isHeadRefUpdate ++ l.filter (fun e => !isHeadRefUpdate e)) ∧
    ((undo_events describe suffix (some "y") now tx).actions =
      applyInverseEvents
        (sortByHeadFirst (computeInverseEvents suffix now tx))) := by
  refine ⟨sortByHeadFirst_partition l, ?_⟩
  have hconf : parseConfirmed (some "y") = true := by decide
  unfold undo_events
  by_cases hemp :
      (undoInverseEvents suffix now tx).isEmpty
  · have hnil : undoInverseEvents suffix now tx = [] :=
      List.isEmpty_iff.mp hemp
    simp only [hemp, if_pos rfl]
    rw [show sortByHeadFirst (computeInverseEvents suffix now tx) =
      undoInverseEvents suffix now tx from rfl, hnil]
    rfl
  · simp only [Bool.not_eq_true] at hemp
    simp only [hemp, hconf, Bool.false_eq_true, if_false, if_pos rfl]
    rfl

/-- C5: `undo_events` drops every create-`HEAD` event (a `HEAD` ref
update with `old_ref = None`) before inversion, so no inverse of such an
event — a `HEAD` ref update with `new_ref = None` — ever appears in the
inverse-event list that is described, confirmed and applied. -/
theorem C5_create_head_filtered (suffix : List Event) (now : Timestamp)
    (tx : EventTransactionId) (e : Event)
    (he : e ∈ undoInverseEvents suffix now tx) :
    isDeleteHeadEvent e = false := by
  have h1 : e ∈ computeInverseEvents suffix now tx := mem_sortByHeadFirst he
  unfold computeInverseEvents at h1
  have h2 := mem_optimize h1
  obtain ⟨e0, he0, rfl⟩ := List.mem_map.mp h2
  have hne : isCreateHeadEvent e0 = false := by
    have := (List.mem_filter.mp he0).2
    simpa using this
  cases e0 with
  | RefUpdateEvent t tx0 n o v m =>
    cases o with
    | some _ => rfl
    | none => simpa [isCreateHeadEvent, inverse_event, isDeleteHeadEvent]
        using hne
  | CommitEvent t tx0 oid => rfl
  | HideEvent t tx0 oid => rfl
  | UnhideEvent t tx0 oid => rfl
  | RewriteEvent t tx0 a b => rfl

/-- C5 witness: on a concrete suffix, the single inverse event is a
member of the computed list and is not a delete-`HEAD` ref update. -/
theorem C5_witness :
    Event.UnhideEvent 2 3 "a" ∈
        undoInverseEvents [Event.HideEvent 0 1 "a"] 2 3 ∧
    isDeleteHeadEvent (Event.UnhideEvent 2 3 "a") = false :=
  ⟨by decide,
    C5_create_head_filtered [Event.HideEvent 0 1 "a"] 2 3 _ (by decide)⟩

/-- C6: non-empty inverse set: the confirmation is accepted exactly when
the input line exists and trims to `y` or `Y`; on any other input the
result has exit code `1`, its last output line is `Aborted.`, and it
performs no repository action (no event-log append, no ref mutation). -/
theorem C6_confirmation (describe : List Event → List String)
    (suffix : List Event) (userInput : Option String)
    (now : Timestamp) (tx : EventTransactionId) :
    (parseConfirmed userInput = true ↔
      ∃ s, userInput = some s ∧
        (rust_trim s = "y" ∨ rust_trim s = "Y")) ∧
    (undoInverseEvents suffix now tx ≠ [] →
      parseConfirmed userInput = false →
      (undo_events describe suffix userInput now tx).exitCode = 1 ∧
      (undo_events describe suffix userInput now tx).output.getLast? =
        some "Aborted." ∧
      (undo_events describe suffix userInput now tx).actions = []) := by
  constructor
  · cases userInput with
    | none => simp [parseConfirmed]
    | some s => simp [parseConfirmed]
  · intro hne hconf
    have hemp : (undoInverseEvents suffix now tx).isEmpty = false := by
      cases h : (undoInverseEvents suffix now tx).isEmpty
      · rfl
      · exact absurd (List.isEmpty_iff.mp h) hne
    unfold undo_events
    simp only [hemp, hconf, Bool.false_eq_true, if_false]
    refine ⟨trivial, ?_, trivial⟩
    exact List.getLast?_concat _

/-- C6 witness: with inverse set `[Unhide]` and input line `n`, the undo
aborts with exit code `1`, final output line `Aborted.`, and no actions. -/
theorem C6_witness :
    (undoInverseEvents [Event.HideEvent 0 1 "a"] 2 3 ≠ [] ∧
      parseConfirmed (some "n") = false) ∧
    (undo_events (fun _ => []) [Event.HideEvent 0 1 "a"] (some "n") 2
        3).exitCode = 1 ∧
    (undo_events (fun _ => []) [Event.HideEvent 0 1 "a"] (some "n") 2
        3).output.getLast? = some "Aborted." ∧
    (undo_events (fun _ => []) [Event.HideEvent 0 1 "a"] (some "n") 2
        3).actions = [] := by
  have key := (C6_confirmation (fun _ => []) [Event.HideEvent 0 1 "a"]
    (some "n") 2 3).2 (by decide) (by decide)
  exact ⟨⟨by decide, by decide⟩, key.1, key.2.1, key.2.2⟩

/-- The data the root comparator reads from a resolved commit: its commit
time (`git2::Time`, an integer number of seconds). -/
structure CommitInfo where
  time : Int
  deriving DecidableEq, Repr

/-- Embedding of the `compare` closure inside
`split_commit_graph_by_roots` (`src/commands/smartlog.rs`).
`find_commit` models `repo.find_commit` (`none` is a resolution failure)
and `get_merge_base_oid` models `merge_base_db.get_merge_base_oid`
(`Except.error` is a lookup failure). -/
def rootCompare (find_commit : String → Option CommitInfo)
    (get_merge_base_oid : String → String → Except Unit (Option String))
    (lhs_oid rhs_oid : String) : Ordering :=
  match find_commit lhs_oid, find_commit rhs_oid with
  | none, none => compare lhs_oid rhs_oid
  | none, some _ => compare lhs_oid rhs_oid
  | some _, none => compare lhs_oid rhs_oid
  | some lhs_commit, some rhs_commit =>
    match get_merge_base_oid lhs_oid rhs_oid with
    | Except.error _ => compare lhs_oid rhs_oid
    | Except.ok merge_base_oid =>
      match merge_base_oid with
      | some mb =>
        if mb = lhs_oid then Ordering.lt
        else if mb = rhs_oid then Ordering.gt
        else
          match compare lhs_commit.time rhs_commit.time with
          | Ordering.eq => compare lhs_oid rhs_oid
          | o => o
      | none =>
        match compare lhs_commit.time rhs_commit.time with
        | Ordering.eq => compare lhs_oid rhs_oid
        | o => o

/-- Commit-resolution oracle for the C7 counterexample: `"a"` has commit
time `5`, every other OID has commit time `3`. -/
def c7FindCommit : String → Option CommitInfo :=
  fun oid => if oid = "a" then some (CommitInfo.mk 5) else some (CommitInfo.mk 3)

/-- Merge-base oracle for the C7 counterexample: every lookup fails. -/
def c7MergeBase : String → String → Except Unit (Option String) :=
  fun _ _ => Except.error ()

/-- C7 counterexample: both commits resolve, the merge-base lookup fails,
and the comparator returns the lexicographic OID order `lt` even though
the left commit's timestamp is greater — so a failed lookup does not fall
back to timestamp comparison, contradicting the claim. -/
theorem C7_counterexample :
    rootCompare c7FindCommit c7MergeBase "a" "b" = Ordering.lt ∧
    c7FindCommit "a" = some (CommitInfo.mk 5) ∧
    c7FindCommit "b" = some (CommitInfo.mk 3) ∧
    compare (CommitInfo.mk 5).time (CommitInfo.mk 3).time = Ordering.gt ∧
    c7MergeBase "a" "b" = Except.error () :=
  ⟨by decide, by decide, by decide, by decide, rfl⟩

/-- C7 (amended): when both commits resolve, the comparator returns `lt`
if the merge base is the left OID, `gt` if it is the right OID (and the
OIDs differ), falls back to commit timestamp with OID tie-break when the
lookup succeeds but the merge base is neither side (or absent), and falls
back to lexicographic OID comparison when the merge-base lookup fails. -/
theorem C7_root_comparator (find_commit : String → Option CommitInfo)
    (get_merge_base_oid : String → String → Except Unit (Option String))
    (lhs_oid rhs_oid : String) (cl cr : CommitInfo)
    (hl : find_commit lhs_oid = some cl)
    (hr : find_commit rhs_oid = some cr) :
    (get_merge_base_oid lhs_oid rhs_oid = Except.error () →
      rootCompare find_commit get_merge_base_oid lhs_oid rhs_oid =
        compare lhs_oid rhs_oid) ∧
    (get_merge_base_oid lhs_oid rhs_oid = Except.ok (some lhs_oid) →
      rootCompare find_commit get_merge_base_oid lhs_oid rhs_oid =
        Ordering.lt) ∧
    (rhs_oid ≠ lhs_oid →
      get_merge_base_oid lhs_oid rhs_oid = Except.ok (some rhs_oid) →
      rootCompare find_commit get_merge_base_oid lhs_oid rhs_oid =
        Ordering.gt) ∧
    (∀ mb, get_merge_base_oid lhs_oid rhs_oid = Except.ok mb →
      mb ≠ some lhs_oid → mb ≠ some rhs_oid →
      rootCompare find_commit get_merge_base_oid lhs_oid rhs_oid =
        (match compare cl.time cr.time with
          | Ordering.eq => compare lhs_oid rhs_oid
          | o => o)) := by
  refine ⟨?_, ?_, ?_, ?_⟩
  · intro hmb
    simp only [rootCompare, hl, hr, hmb]
  · intro hmb
    simp only [rootCompare, hl, hr, hmb]
    rfl
  · intro hne hmb
    simp only [rootCompare, hl, hr, hmb, if_neg hne]
    rfl
  · intro mb hmb hnl hnr
    simp only [rootCompare, hl, hr, hmb]
    cases mb with
    | none => rfl
    | some m =>
      have hml : ¬ m = lhs_oid := fun h => hnl (by rw [h])
      have hmr : ¬ m = rhs_oid := fun h => hnr (by rw [h])
      simp only [if_neg hml, if_neg hmr]

/-- C7 witness: with both commits resolving and the merge base equal to
the left OID, the comparator returns `lt`. -/
theorem C7_witness :
    rootCompare (fun _ => some (CommitInfo.mk 5))
        (fun _ _ => Except.ok (some "a")) "a" "b" = Ordering.lt := by
  have key := C7_root_comparator (fun _ => some (CommitInfo.mk 5))
    (fun _ _ => Except.ok (some "a")) "a" "b"
    (CommitInfo.mk 5) (CommitInfo.mk 5) rfl rfl
  exact key.2.1 rfl

/-- Split a character list at every newline, keeping all (possibly empty)
segments; the result is always non-empty. -/
def splitLines : List Char → List (List Char)
  | [] => [[]]
  | c :: cs =>
    if c = '\n' then [] :: splitLines cs
    else
      match splitLines cs with
      | [] => [[c]]
      | l :: ls => (c :: l) :: ls

/-- Remove one trailing carriage return from a line, as Rust's
`str::lines` does. -/
def stripCr (line : List Char) : List Char :=
  if line.getLast? = some '\r' then line.dropLast else line

/-- Embedding of Rust's `str::lines`: split at newlines, drop the final
empty segment produced by a trailing newline, and strip a trailing
carriage return from each line. -/
def rustLines (s : List Char) : List (List Char) :=
  (if (splitLines s).getLast? = some [] then (splitLines s).dropLast
    else splitLines s).map stripCr

/-- Join lines back into a character list, terminating every line with a
newline. -/
def joinLines : List (List Char) → List Char
  | [] => []
  | l :: rest => l ++ '\n' :: joinLines rest

/-- The sentinel opening a managed hook region
(`src/commands/init.rs`). -/
def UPDATE_MARKER_START : List Char := "## START BRANCHLESS CONFIG".data

/-- The sentinel closing a managed hook region. -/
def UPDATE_MARKER_END : List Char := "## END BRANCHLESS CONFIG".data

/-- The loop of `update_between_lines` over the file's lines.  The
boolean state is `is_ignoring_lines`; the boolean result is whether the
loop finished still ignoring (the condition under which the source logs
the "Unterminated branchless config comment in hook" warning). -/
def updateLinesGo (updated_lines : List Char) :
    List (List Char) → Bool → List Char × Bool
  | [], is_ignoring_lines => ([], is_ignoring_lines)
  | line :: rest, is_ignoring_lines =>
    if line = UPDATE_MARKER_START then
      let r := updateLinesGo updated_lines rest true
      (UPDATE_MARKER_START ++ '\n' ::
        (updated_lines ++ (UPDATE_MARKER_END ++ '\n' :: r.1)), r.2)
    else if line = UPDATE_MARKER_END then
      updateLinesGo updated_lines rest false
    else if is_ignoring_lines then
      updateLinesGo updated_lines rest true
    else
      let r := updateLinesGo updated_lines rest false
      (line ++ '\n' :: r.1, r.2)

/-- Embedding of `update_between_lines` from `src/commands/init.rs`: the
returned pair is the new file content and whether the unterminated-region
warning fired. -/
def update_between_lines (lines updated_lines : List Char) :
    List Char × Bool :=
  updateLinesGo updated_lines (rustLines lines) false

lemma splitLines_ne_nil (s : List Char) : splitLines s ≠ [] := by
  cases s with
  | nil => simp [splitLines]
  | cons c cs =>
    by_cases hc : c = '\n'
    · simp [splitLines, hc]
    · simp only [splitLines, if_neg hc]
      cases h : splitLines cs <;> simp

lemma splitLines_cons_nl (cs : List Char) :
    splitLines ('\n' :: cs) = [] :: splitLines cs := by
  simp [splitLines]

lemma splitLines_cons_of_ne (c : Char) (cs : List Char) (hc : ¬ c = '\n')
    (m : List Char) (ms : List (List Char))
    (hsp : splitLines cs = m :: ms) :
    splitLines (c :: cs) = (c :: m) :: ms := by
  rw [show splitLines (c :: cs) =
    (if c = '\n' then [] :: splitLines cs
      else
        match splitLines cs with
        | [] => [[c]]
        | l :: ls => (c :: l) :: ls) from rfl, if_neg hc, hsp]

lemma splitLines_no_nl (s : List Char) :
    ∀ l ∈ splitLines s, '\n' ∉ l := by
  induction s with
  | nil =>
    intro l hl
    simp [splitLines] at hl
    simp [hl]
  | cons c cs ih =>
    intro l hl
    by_cases hc : c = '\n'
    · subst hc
      rw [splitLines_cons_nl] at hl
      rcases List.mem_cons.mp hl with rfl | h
      · simp
      · exact ih l h
    · rcases hsp : splitLines cs with _ | ⟨m, ms⟩
      · exact absurd hsp (splitLines_ne_nil cs)
      · rw [splitLines_cons_of_ne c cs hc m ms hsp] at hl
        rcases List.mem_cons.mp hl with rfl | h
        · intro hmem
          rcases List.mem_cons.mp hmem with h1 | h2
          · exact hc h1.symm
          · exact ih m (by rw [hsp]; exact List.mem_cons_self _ _) h2
        · exact ih l (by rw [hsp]; exact List.mem_cons_of_mem _ h)

lemma splitLines_line (l rest : List Char) (hl : '\n' ∉ l) :
    splitLines (l ++ '\n' :: rest) = l :: splitLines rest := by
  induction l with
  | nil => simpa using splitLines_cons_nl rest
  | cons c cl ih =>
    have hc : ¬ c = '\n' := fun h => hl (by rw [h]; exact List.mem_cons_self _ _)
    have hcl : '\n' ∉ cl := fun h => hl (List.mem_cons_of_mem _ h)
    rw [List.cons_append]
    exact splitLines_cons_of_ne c _ hc cl (splitLines rest) (ih hcl)

lemma rustLines_nil : rustLines [] = [] := by rfl

lemma rustLines_line (l rest : List Char) (hl : '\n' ∉ l) :
    rustLines (l ++ '\n' :: rest) = stripCr l :: rustLines rest := by
  unfold rustLines
  rw [splitLines_line l rest hl]
  obtain ⟨m, ms, hsp⟩ : ∃ m ms, splitLines rest = m :: ms := by
    rcases h : splitLines rest with _ | ⟨m, ms⟩
    · exact absurd h (splitLines_ne_nil rest)
    · exact ⟨m, ms, rfl⟩
  rw [hsp, List.getLast?_cons_cons]
  by_cases hcond : (m :: ms).getLast? = some ([] : List Char)
  · rw [if_pos hcond, if_pos hcond,
      show (l :: m :: ms).dropLast = l :: (m :: ms).dropLast from rfl,
      List.map_cons]
  · rw [if_neg hcond, if_neg hcond, List.map_cons]

lemma rustLines_no_nl (s : List Char) :
    ∀ l ∈ rustLines s, '\n' ∉ l := by
  intro l hl
  unfold rustLines at hl
  obtain ⟨m, hm, rfl⟩ := List.mem_map.mp hl
  have hm' : m ∈ splitLines s := by
    by_cases hcond : (splitLines s).getLast? = some ([] : List Char)
    · rw [if_pos hcond] at hm
      exact (List.dropLast_sublist _).mem hm
    · rwa [if_neg hcond] at hm
  have hnl := splitLines_no_nl s m hm'
  intro hmem
  unfold stripCr at hmem
  by_cases hc : m.getLast? = some '\r'
  · rw [if_pos hc] at hmem
    exact hnl ((List.dropLast_sublist _).mem hmem)
  · rw [if_neg hc] at hmem
    exact hnl hmem

lemma rustLines_join_append (ls : List (List Char)) (b : List Char)
    (h : ∀ l ∈ ls, '\n' ∉ l) :
    rustLines (joinLines ls ++ b) = ls.map stripCr ++ rustLines b := by
  induction ls with
  | nil => simp [joinLines]
  | cons l rest ih =>
    have hstep : joinLines (l :: rest) ++ b =
        l ++ '\n' :: (joinLines rest ++ b) := by
      simp [joinLines]
    rw [hstep, rustLines_line l _ (h l (List.mem_cons_self _ _)),
      ih fun x hx => h x (List.mem_cons_of_mem _ hx), List.map_cons,
      List.cons_append]

lemma rustLines_join (ls : List (List Char))
    (h : ∀ l ∈ ls, '\n' ∉ l) :
    rustLines (joinLines ls) = ls.map stripCr := by
  have := rustLines_join_append ls [] h
  simpa [rustLines_nil] using this

lemma exists_line_split (a : List Char) (h : '\n' ∈ a) :
    ∃ l a', a = l ++ '\n' :: a' ∧ '\n' ∉ l := by
  induction a with
  | nil => simp at h
  | cons c cs ih =>
    by_cases hc : c = '\n'
    · exact ⟨[], cs, by rw [hc]; rfl, by simp⟩
    · have h' : '\n' ∈ cs := by
        rcases List.mem_cons.mp h with h1 | h2
        · exact absurd h1.symm hc
        · exact h2
      obtain ⟨l, a', ha, hl⟩ := ih h'
      refine ⟨c :: l, a', by rw [ha]; rfl, ?_⟩
      intro hm
      rcases List.mem_cons.mp hm with h1 | h2
      · exact hc h1.symm
      · exact hl h2

lemma rustLines_append_aux (n : Nat) :
    ∀ a : List Char, a.length ≤ n → a.getLast? = some '\n' →
      ∀ b, rustLines (a ++ b) = rustLines a ++ rustLines b := by
  induction n with
  | zero =>
    intro a ha hlast b
    have hnil : a = [] := List.length_eq_zero.mp (Nat.le_zero.mp ha)
    rw [hnil] at hlast
    simp at hlast
  | succ n ih =>
    intro a ha hlast b
    have hmem : '\n' ∈ a := List.mem_of_mem_getLast? (by rw [hlast]; rfl)
    obtain ⟨l, a', rfl, hl⟩ := exists_line_split a hmem
    cases a' with
    | nil =>
      have h1 : (l ++ ['\n']) ++ b = l ++ '\n' :: b := by simp
      rw [h1, rustLines_line l b hl,
        show l ++ ['\n'] = l ++ '\n' :: [] from rfl, rustLines_line l [] hl,
        rustLines_nil, List.cons_append, List.nil_append]
    | cons c a'' =>
      have hlast2 : (c :: a'').getLast? = some '\n' := by
        rw [List.getLast?_append_of_ne_nil l (by simp),
          List.getLast?_cons_cons] at hlast
        exact hlast
      have hlen : (c :: a'').length ≤ n := by
        have h2 := ha
        simp only [List.length_append, List.length_cons] at h2 ⊢
        omega
      have h1 : (l ++ '\n' :: c :: a'') ++ b =
          l ++ '\n' :: ((c :: a'') ++ b) := by simp
      rw [h1, rustLines_line l _ hl, rustLines_line l _ hl,
        ih (c :: a'') hlen hlast2 b, List.cons_append]

lemma rustLines_append (a b : List Char) (h : a.getLast? = some '\n') :
    rustLines (a ++ b) = rustLines a ++ rustLines b :=
  rustLines_append_aux a.length a (Nat.le_refl _) h b

lemma marker_end_ne_start : UPDATE_MARKER_END ≠ UPDATE_MARKER_START := by
  decide

lemma no_nl_marker_start : '\n' ∉ UPDATE_MARKER_START := by decide

lemma no_nl_marker_end : '\n' ∉ UPDATE_MARKER_END := by decide

lemma stripCr_marker_start : stripCr UPDATE_MARKER_START = UPDATE_MARKER_START := by
  decide

lemma stripCr_marker_end : stripCr UPDATE_MARKER_END = UPDATE_MARKER_END := by
  decide

lemma map_stripCr_id (ls : List (List Char))
    (h : ∀ l ∈ ls, stripCr l = l) : ls.map stripCr = ls := by
  induction ls with
  | nil => rfl
  | cons l ps ih =>
    rw [List.map_cons, h l (List.mem_cons_self _ _),
      ih fun x hx => h x (List.mem_cons_of_mem _ hx)]

lemma updateLinesGo_start (u : List Char) (rest : List (List Char))
    (b : Bool) :
    updateLinesGo u (UPDATE_MARKER_START :: rest) b =
      (UPDATE_MARKER_START ++ '\n' ::
        (u ++ (UPDATE_MARKER_END ++ '\n' ::
          (updateLinesGo u rest true).1)),
        (updateLinesGo u rest true).2) := by
  simp [updateLinesGo]

lemma updateLinesGo_end (u : List Char) (rest : List (List Char))
    (b : Bool) :
    updateLinesGo u (UPDATE_MARKER_END :: rest) b =
      updateLinesGo u rest false := by
  simp [updateLinesGo, marker_end_ne_start]

lemma updateLinesGo_other (u line : List Char) (rest : List (List Char))
    (hs : line ≠ UPDATE_MARKER_START) (he : line ≠ UPDATE_MARKER_END) :
    updateLinesGo u (line :: rest) false =
      (line ++ '\n' :: (updateLinesGo u rest false).1,
        (updateLinesGo u rest false).2) := by
  simp [updateLinesGo, hs, he]

lemma updateLinesGo_skip (u line : List Char) (rest : List (List Char))
    (hs : line ≠ UPDATE_MARKER_START) (he : line ≠ UPDATE_MARKER_END) :
    updateLinesGo u (line :: rest) true = updateLinesGo u rest true := by
  simp [updateLinesGo, hs, he]

lemma updateLinesGo_pre (u : List Char) (pre rest : List (List Char))
    (h : ∀ l ∈ pre, l ≠ UPDATE_MARKER_START ∧ l ≠ UPDATE_MARKER_END) :
    updateLinesGo u (pre ++ rest) false =
      (joinLines pre ++ (updateLinesGo u rest false).1,
        (updateLinesGo u rest false).2) := by
  induction pre with
  | nil => simp [joinLines]
  | cons l ps ih =>
    obtain ⟨hs, he⟩ := h l (List.mem_cons_self _ _)
    rw [List.cons_append, updateLinesGo_other u l _ hs he,
      ih fun x hx => h x (List.mem_cons_of_mem _ hx)]
    simp [joinLines]

lemma updateLinesGo_skipAll (u : List Char) (mid rest : List (List Char))
    (h : ∀ l ∈ mid, l ≠ UPDATE_MARKER_START ∧ l ≠ UPDATE_MARKER_END) :
    updateLinesGo u (mid ++ rest) true = updateLinesGo u rest true := by
  induction mid with
  | nil => rfl
  | cons l ps ih =>
    obtain ⟨hs, he⟩ := h l (List.mem_cons_self _ _)
    rw [List.cons_append, updateLinesGo_skip u l _ hs he,
      ih fun x hx => h x (List.mem_cons_of_mem _ hx)]

lemma updateLinesGo_all_ignored (u : List Char) (rest : List (List Char))
    (h : ∀ l ∈ rest, l ≠ UPDATE_MARKER_START ∧ l ≠ UPDATE_MARKER_END) :
    updateLinesGo u rest true = ([], true) := by
  have := updateLinesGo_skipAll u rest [] h
  rw [List.append_nil] at this
  rw [this]
  rfl

lemma updateLines_region (u : List Char) (pre mid post : List (List Char))
    (hpre : ∀ l ∈ pre, l ≠ UPDATE_MARKER_START ∧ l ≠ UPDATE_MARKER_END)
    (hmid : ∀ l ∈ mid, l ≠ UPDATE_MARKER_START ∧ l ≠ UPDATE_MARKER_END)
    (hpost : ∀ l ∈ post, l ≠ UPDATE_MARKER_START ∧ l ≠ UPDATE_MARKER_END) :
    updateLinesGo u
      (pre ++ UPDATE_MARKER_START :: (mid ++ UPDATE_MARKER_END :: post))
      false =
      (joinLines pre ++ (UPDATE_MARKER_START ++ '\n' ::
        (u ++ (UPDATE_MARKER_END ++ '\n' :: joinLines post))), false) := by
  have hpost' : updateLinesGo u post false = (joinLines post, false) := by
    have h0 := updateLinesGo_pre u post [] hpost
    rw [List.append_nil] at h0
    rw [h0]
    simp [updateLinesGo]
  rw [updateLinesGo_pre u pre _ hpre, updateLinesGo_start,
    updateLinesGo_skipAll u mid _ hmid, updateLinesGo_end, hpost']

lemma updateLines_unterminated (u : List Char) (pre rest : List (List Char))
    (hpre : ∀ l ∈ pre, l ≠ UPDATE_MARKER_START ∧ l ≠ UPDATE_MARKER_END)
    (hrest : ∀ l ∈ rest, l ≠ UPDATE_MARKER_START ∧ l ≠ UPDATE_MARKER_END) :
    updateLinesGo u (pre ++ UPDATE_MARKER_START :: rest) false =
      (joinLines pre ++ (UPDATE_MARKER_START ++ '\n' ::
        (u ++ (UPDATE_MARKER_END ++ '\n' :: []))), true) := by
  rw [updateLinesGo_pre u pre _ hpre, updateLinesGo_start,
    updateLinesGo_all_ignored u rest hrest]

lemma update_of_region (file u : List Char) (pre mid post : List (List Char))
    (hsplit : rustLines file =
      pre ++ UPDATE_MARKER_START :: (mid ++ UPDATE_MARKER_END :: post))
    (hpre : ∀ l ∈ pre, l ≠ UPDATE_MARKER_START ∧ l ≠ UPDATE_MARKER_END)
    (hmid : ∀ l ∈ mid, l ≠ UPDATE_MARKER_START ∧ l ≠ UPDATE_MARKER_END)
    (hpost : ∀ l ∈ post, l ≠ UPDATE_MARKER_START ∧ l ≠ UPDATE_MARKER_END) :
    update_between_lines file u =
      (joinLines pre ++ (UPDATE_MARKER_START ++ '\n' ::
        (u ++ (UPDATE_MARKER_END ++ '\n' :: joinLines post))), false) := by
  unfold update_between_lines
  rw [hsplit]
  exact updateLines_region u pre mid post hpre hmid hpost

lemma rustLines_output (u : List Char) (pre post : List (List Char))
    (hpre_nl : ∀ l ∈ pre, '\n' ∉ l)
    (hpost_nl : ∀ l ∈ post, '\n' ∉ l)
    (hpre_cr : ∀ l ∈ pre, stripCr l = l)
    (hpost_cr : ∀ l ∈ post, stripCr l = l)
    (hu : u = [] ∨ u.getLast? = some '\n') :
    rustLines (joinLines pre ++ (UPDATE_MARKER_START ++ '\n' ::
        (u ++ (UPDATE_MARKER_END ++ '\n' :: joinLines post)))) =
      pre ++ UPDATE_MARKER_START ::
        (rustLines u ++ UPDATE_MARKER_END :: post) := by
  have hend : rustLines (UPDATE_MARKER_END ++ '\n' :: joinLines post) =
      UPDATE_MARKER_END :: post := by
    rw [rustLines_line _ _ no_nl_marker_end, stripCr_marker_end,
      rustLines_join post hpost_nl, map_stripCr_id post hpost_cr]
  have hmidpart :
      rustLines (u ++ (UPDATE_MARKER_END ++ '\n' :: joinLines post)) =
        rustLines u ++ UPDATE_MARKER_END :: post := by
    rcases hu with rfl | hu'
    · rw [rustLines_nil, List.nil_append, List.nil_append, hend]
    · rw [rustLines_append u _ hu', hend]
  rw [rustLines_join_append pre _ hpre_nl, map_stripCr_id pre hpre_cr,
    rustLines_line _ _ no_nl_marker_start, stripCr_marker_start, hmidpart]

/-- C8 counterexample: a properly terminated hook file followed by a
trailing line, updated with a body that does not end in a newline.  The
first update splices the body directly before the end sentinel, so the
second update no longer finds the end sentinel and drops the trailing
line: the result of running the update twice differs from running it
once. -/
theorem C8_counterexample :
    (update_between_lines
        (update_between_lines
          ("## START BRANCHLESS CONFIG\n## END BRANCHLESS CONFIG\npost\n".data)
          ("x".data)).1
        ("x".data)).1 ≠
      (update_between_lines
        ("## START BRANCHLESS CONFIG\n## END BRANCHLESS CONFIG\npost\n".data)
        ("x".data)).1 := by
  decide

/-- C8 (amended): for a hook file whose lines decompose into a properly
terminated sentinel region (no stray sentinel lines, lines free of
carriage-return endings), a single update replaces exactly the region
body and preserves every line outside it, without warning; and provided
the replacement body is empty or newline-terminated and contains no
sentinel lines, running the update a second time with the same body
returns a byte-identical result. -/
theorem C8_update_idempotent (file u : List Char)
    (pre mid post : List (List Char))
    (hsplit : rustLines file =
      pre ++ UPDATE_MARKER_START :: (mid ++ UPDATE_MARKER_END :: post))
    (hpre : ∀ l ∈ pre, l ≠ UPDATE_MARKER_START ∧ l ≠ UPDATE_MARKER_END)
    (hmid : ∀ l ∈ mid, l ≠ UPDATE_MARKER_START ∧ l ≠ UPDATE_MARKER_END)
    (hpost : ∀ l ∈ post, l ≠ UPDATE_MARKER_START ∧ l ≠ UPDATE_MARKER_END)
    (hpre_cr : ∀ l ∈ pre, stripCr l = l)
    (hpost_cr : ∀ l ∈ post, stripCr l = l)
    (hu : u = [] ∨ u.getLast? = some '\n')
    (hu_lines : ∀ l ∈ rustLines u,
      l ≠ UPDATE_MARKER_START ∧ l ≠ UPDATE_MARKER_END) :
    update_between_lines file u =
      (joinLines pre ++ (UPDATE_MARKER_START ++ '\n' ::
        (u ++ (UPDATE_MARKER_END ++ '\n' :: joinLines post))), false) ∧
    update_between_lines (update_between_lines file u).1 u =
      update_between_lines file u := by
  have hpre_nl : ∀ l ∈ pre, '\n' ∉ l := by
    intro l hl
    exact rustLines_no_nl file l
      (by rw [hsplit]; exact List.mem_append_left _ hl)
  have hpost_nl : ∀ l ∈ post, '\n' ∉ l := by
    intro l hl
    refine rustLines_no_nl file l ?_
    rw [hsplit]
    exact List.mem_append_right _ (List.mem_cons_of_mem _
      (List.mem_append_right _ (List.mem_cons_of_mem _ hl)))
  have h1 := update_of_region file u pre mid post hsplit hpre hmid hpost
  refine ⟨h1, ?_⟩
  rw [h1]
  have hsplit2 := rustLines_output u pre post hpre_nl hpost_nl
    hpre_cr hpost_cr hu
  have h2 := update_of_region
    (joinLines pre ++ (UPDATE_MARKER_START ++ '\n' ::
      (u ++ (UPDATE_MARKER_END ++ '\n' :: joinLines post))))
    u pre (rustLines u) post hsplit2 hpre hu_lines hpost
  exact h2

/-- C8 witness: concrete evaluation of both conjuncts of the amended
claim on a well-formed hook file with a newline-terminated body. -/
theorem C8_witness :
    update_between_lines
        ("hello\n## START BRANCHLESS CONFIG\nold\n## END BRANCHLESS CONFIG\nbye\n".data)
        ("contents\n".data) =
      (joinLines ["hello".data] ++ (UPDATE_MARKER_START ++ '\n' ::
        ("contents\n".data ++ (UPDATE_MARKER_END ++ '\n' ::
          joinLines ["bye".data]))), false) ∧
    update_between_lines
        (update_between_lines
          ("hello\n## START BRANCHLESS CONFIG\nold\n## END BRANCHLESS CONFIG\nbye\n".data)
          ("contents\n".data)).1
        ("contents\n".data) =
      update_between_lines
        ("hello\n## START BRANCHLESS CONFIG\nold\n## END BRANCHLESS CONFIG\nbye\n".data)
        ("contents\n".data) :=
  C8_update_idempotent _ _ ["hello".data] ["old".data] ["bye".data]
    (by decide) (by decide) (by decide) (by decide) (by decide) (by decide)
    (Or.inr (by decide)) (by decide)

/-- C9 counterexample: on a file with a start sentinel and no end
sentinel, re-installation does not preserve the existing content — the
text from the start sentinel to the end of the file is replaced with the
new body and a closing sentinel — although the warning does fire. -/
theorem C9_counterexample :
    (update_between_lines ("a\n## START BRANCHLESS CONFIG\nold\n".data)
        ("new\n".data)).1 ≠
      "a\n## START BRANCHLESS CONFIG\nold\n".data ∧
    (update_between_lines ("a\n## START BRANCHLESS CONFIG\nold\n".data)
        ("new\n".data)).2 = true := by
  exact ⟨by decide, by decide⟩

/-- C9 (amended): on a hook file containing a start sentinel with no
matching end sentinel (and no other sentinel lines), the update reports
the unterminated-region warning; the lines before the start sentinel are
preserved, while everything from the start sentinel to the end of the
file is replaced by the new body followed by a closing end sentinel. -/
theorem C9_unterminated_region (file u : List Char)
    (pre rest : List (List Char))
    (hsplit : rustLines file = pre ++ UPDATE_MARKER_START :: rest)
    (hpre : ∀ l ∈ pre, l ≠ UPDATE_MARKER_START ∧ l ≠ UPDATE_MARKER_END)
    (hrest : ∀ l ∈ rest, l ≠ UPDATE_MARKER_START ∧ l ≠ UPDATE_MARKER_END) :
    (update_between_lines file u).2 = true ∧
    (update_between_lines file u).1 =
      joinLines pre ++ (UPDATE_MARKER_START ++ '\n' ::
        (u ++ (UPDATE_MARKER_END ++ '\n' :: []))) := by
  unfold update_between_lines
  rw [hsplit, updateLines_unterminated u pre rest hpre hrest]
  exact ⟨rfl, rfl⟩

/-- C9 witness: concrete evaluation of the amended claim on a file whose
region is unterminated. -/
theorem C9_witness :
    (update_between_lines ("a\n## START BRANCHLESS CONFIG\nold\n".data)
        ("new\n".data)).2 = true ∧
    (update_between_lines ("a\n## START BRANCHLESS CONFIG\nold\n".data)
        ("new\n".data)).1 =
      joinLines ["a".data] ++ (UPDATE_MARKER_START ++ '\n' ::
        ("new\n".data ++ (UPDATE_MARKER_END ++ '\n' :: []))) :=
  C9_unterminated_region _ _ ["a".data] ["old".data]
    (by decide) (by decide) (by decide)
